import Mathlib

/-!
Verification of the lock-free MPMC queue in `src/lock_free_queue.h`,
embedded shallowly as a sequential (single-thread) semantics.

Pointers are modelled as natural-number addresses: the node created as the
i-th allocation lives at address `2 * i + 2`, so every node address is even
and at least 2, and the null pointer is `0`.  This mirrors the C++ code's
alignment assumption that the low bit of a node pointer is always zero.
The heap is the list of allocated nodes, indexed by allocation order.

Every atomic compare-and-swap in the source is given its sequential
semantics: with a single thread no other writer can intervene between the
load of `expected` and the CAS, so the CAS succeeds exactly when the loaded
value still matches — which it always does, except in `push_back_node`,
where the expected value is built with a null pointer part and the loop
would spin forever if `last->next` had a non-null pointer part.  That
(unreachable) divergence is modelled by returning `none`.
-/

/-- `TaggedPtr<T>` from the source: a pointer-sized word whose low bit is a
flag.  `raw` is the whole word. -/
structure TaggedPtr where
  raw : Nat
deriving DecidableEq, Repr

namespace TaggedPtr

/-- `TaggedPtr()` — the default constructor, `raw(0)`. -/
def null : TaggedPtr := ⟨0⟩

/-- `TaggedPtr(T *p, bool b)` — `raw(reinterpret_cast<uintptr_t>(p) | b)`. -/
def ofPtrBit (p : Nat) (b : Bool) : TaggedPtr :=
  ⟨p ||| (if b then 1 else 0)⟩

/-- `explicit TaggedPtr(std::uintptr_t raw)`. -/
def ofRaw (r : Nat) : TaggedPtr := ⟨r⟩

/-- `T *ptr() const` — `(raw >> 1) << 1`, i.e. the word with the low bit
cleared. -/
def ptr (t : TaggedPtr) : Nat := t.raw / 2 * 2

/-- `bool bit() const` — `raw & 1`. -/
def bit (t : TaggedPtr) : Bool := t.raw % 2 == 1

/-- `void ptr(T *new_value)` — `*this = TaggedPtr(new_value, bit())`. -/
def setPtr (t : TaggedPtr) (p : Nat) : TaggedPtr := ofPtrBit p t.bit

/-- `void bit(bool new_value)` — `*this = TaggedPtr(ptr(), new_value)`. -/
def setBit (t : TaggedPtr) (b : Bool) : TaggedPtr := ofPtrBit t.ptr b

end TaggedPtr

/-- `Queue<T>::Node`: the union holds the value only while the node is live
(modelled as `Option`), and `next` is the atomic tagged pointer. -/
structure Node (α : Type) where
  value : Option α
  next : TaggedPtr
deriving DecidableEq, Repr

/-- The state of a `Queue<T>`: the heap of all nodes ever allocated (they
are never individually freed before destruction), the three atomic
pointers, and an allocation counter (number of `new Node` executed). -/
structure Queue (α : Type) where
  heap : List (Node α)
  before_first : Nat
  last : Nat
  free_list : Nat
  allocCount : Nat
deriving DecidableEq, Repr

/-- Address of the node at heap index `i`. -/
def addrOf (i : Nat) : Nat := 2 * i + 2

/-- Heap index of the node at address `a`. -/
def idxOf (a : Nat) : Nat := a / 2 - 1

namespace Queue

variable {α : Type}

/-- Dereference a node address. -/
def getNode (s : Queue α) (a : Nat) : Option (Node α) := s.heap[idxOf a]?

/-- Overwrite the node at address `a`. -/
def setNode (s : Queue α) (a : Nat) (nd : Node α) : Queue α :=
  { s with heap := s.heap.set (idxOf a) nd }

/-- `Queue()`: allocate the initial "dummy" node; `before_first` and `last`
point at it and the free list is empty. -/
def init (α : Type) : Queue α :=
  { heap := [⟨none, TaggedPtr.null⟩]
    before_first := addrOf 0
    last := addrOf 0
    free_list := 0
    allocCount := 1 }

/-- The free-list acquisition loop at the top of `push_back`: take the head
of the free list unless it is absent or busy.  Returns the acquired node's
address (`none` means a fresh node must be allocated) and the new state;
the outer `none` signals a wild address (impossible in reachable states). -/
def acquireNode (s : Queue α) : Option (Option Nat × Queue α) :=
  if s.free_list = 0 then
    some (none, s)
  else
    match s.getNode s.free_list with
    | none => none
    | some nd =>
      if nd.next.bit then
        -- The node is busy.  Bail.
        some (none, s)
      else
        -- The node is not busy.  Snatch it (the CAS succeeds sequentially).
        some (some s.free_list, { s with free_list := nd.next.ptr })

/-- `node = new Node`: append a fresh node (value uninitialized, `next`
default-constructed to raw 0) and return its address. -/
def allocNode (s : Queue α) : Nat × Queue α :=
  (addrOf s.heap.length,
   { s with heap := s.heap ++ [⟨none, TaggedPtr.null⟩]
            allocCount := s.allocCount + 1 })

/-- `push_back_node(Node *node)`: CAS `last->next` from a null-pointer word
to `(node, true)`, then store `last = node`.  Sequentially the CAS succeeds
iff `last->next` has a null pointer part; otherwise the loop would spin
forever, modelled as `none`. -/
def push_back_node (s : Queue α) (node : Nat) : Option (Queue α) :=
  match s.getNode s.last with
  | none => none
  | some lastNd =>
    if lastNd.next.ptr = 0 then
      let s1 := s.setNode s.last { lastNd with next := TaggedPtr.ofPtrBit node true }
      some { s1 with last := node }
    else
      none

/-- `push_back(value)`: acquire a node (recycled or fresh), construct the
value into it, mark it busy with `next = (nullptr, true)`, and append it. -/
def push_back (s : Queue α) (v : α) : Option (Queue α) :=
  match s.acquireNode with
  | none => none
  | some (acq, s1) =>
    let p : Nat × Queue α :=
      match acq with
      | some a => (a, s1)
      | none => s1.allocNode
    match p.2.getNode p.1 with
    | none => none
    | some _ =>
      let s3 := p.2.setNode p.1 ⟨some v, TaggedPtr.ofPtrBit 0 true⟩
      s3.push_back_node p.1

/-- `try_pop_front()`: advance `before_first` to its successor (if any),
move that node's value out, destroy it, clear the node's busy bit, and
retire the old `before_first` node onto the free list, preserving its tag
bit.  Returns the popped value (or `none` for the empty queue) and the new
state; the outer `none` models undefined behaviour on wild states. -/
def try_pop_front (s : Queue α) : Option (Option α × Queue α) :=
  match s.getNode s.before_first with
  | none => none
  | some bf =>
    let new_bf := bf.next.ptr
    if new_bf = 0 then
      some (none, s) -- empty queue
    else
      let s1 : Queue α := { s with before_first := new_bf }
      match s1.getNode new_bf with
      | none => none
      | some nbNode =>
        match nbNode.value with
        | none => none
        | some v =>
          -- move the value out, destroy it, and unset the busy bit
          let s2 := s1.setNode new_bf ⟨none, TaggedPtr.ofPtrBit nbNode.next.ptr false⟩
          match s2.getNode s.before_first with
          | none => none
          | some oldBf =>
            -- repurpose `old_before_first->next` as the free-list link,
            -- preserving its bit, then CAS it onto `free_list`
            let s3 := s2.setNode s.before_first
              { oldBf with next := TaggedPtr.ofPtrBit s2.free_list oldBf.next.bit }
            some (some v, { s3 with free_list := s.before_first })

end Queue

/-- A single-threaded client operation on the queue. -/
inductive Op (α : Type) where
  | push : α → Op α
  | pop : Op α
deriving DecidableEq, Repr

/-- Run a list of operations, collecting each `try_pop_front` result. -/
def run {α : Type} (s : Queue α) : List (Op α) → Option (Queue α × List (Option α))
  | [] => some (s, [])
  | Op.push v :: ops =>
    match s.push_back v with
    | none => none
    | some s' => run s' ops
  | Op.pop :: ops =>
    match s.try_pop_front with
    | none => none
    | some (res, s') => (run s' ops).map (fun p => (p.1, res :: p.2))

/-- The values pushed by a list of operations, in order. -/
def pushedOf {α : Type} : List (Op α) → List α
  | [] => []
  | Op.push v :: ops => v :: pushedOf ops
  | Op.pop :: ops => pushedOf ops

/-! ## Arithmetic facts about the tagged-pointer word -/

/-- Setting the low bit of an even word by bitwise-or is addition of 1. -/
theorem lor_one_of_even {p : Nat} (hp : p % 2 = 0) : p ||| 1 = p + 1 := by
  apply Nat.eq_of_testBit_eq
  intro i
  cases i with
  | zero =>
    rw [Nat.testBit_lor]
    rw [Nat.testBit_zero, Nat.testBit_zero, Nat.testBit_zero]
    have h1 : ¬ p % 2 = 1 := by omega
    have h2 : (p + 1) % 2 = 1 := by omega
    simp [h1, h2]
  | succ j =>
    rw [Nat.testBit_lor]
    rw [Nat.testBit_succ, Nat.testBit_succ, Nat.testBit_succ]
    have h1 : (1 : Nat) / 2 = 0 := by norm_num
    have h2 : (p + 1) / 2 = p / 2 := by omega
    rw [h1, h2]
    simp

namespace TaggedPtr

theorem raw_ofPtrBit {p : Nat} (hp : p % 2 = 0) (b : Bool) :
    (ofPtrBit p b).raw = p + (if b then 1 else 0) := by
  cases b <;> simp [ofPtrBit, lor_one_of_even hp]

theorem ptr_ofPtrBit {p : Nat} (hp : p % 2 = 0) (b : Bool) :
    (ofPtrBit p b).ptr = p := by
  rw [ptr, raw_ofPtrBit hp]
  cases b <;> simp <;> omega

theorem bit_ofPtrBit {p : Nat} (hp : p % 2 = 0) (b : Bool) :
    (ofPtrBit p b).bit = b := by
  rw [bit, raw_ofPtrBit hp]
  cases b <;> simp <;> omega

theorem ptr_even (t : TaggedPtr) : t.ptr % 2 = 0 := by
  rw [ptr]; omega

end TaggedPtr

/-! ## Heap addressing -/

theorem addrOf_even (i : Nat) : addrOf i % 2 = 0 := by
  rw [addrOf]; omega

theorem idxOf_addrOf (i : Nat) : idxOf (addrOf i) = i := by
  rw [idxOf, addrOf]; omega

theorem addrOf_idxOf {a : Nat} (h2 : a % 2 = 0) (h1 : 2 ≤ a) :
    addrOf (idxOf a) = a := by
  rw [idxOf, addrOf]; omega

theorem idxOf_inj {a b : Nat} (ha2 : a % 2 = 0) (ha1 : 2 ≤ a)
    (hb2 : b % 2 = 0) (hb1 : 2 ≤ b) (h : idxOf a = idxOf b) : a = b := by
  rw [idxOf, idxOf] at h; omega

namespace Queue

variable {α : Type}

/-- `a` is the address of an allocated node of `s`. -/
def validA (s : Queue α) (a : Nat) : Prop :=
  a % 2 = 0 ∧ 2 ≤ a ∧ idxOf a < s.heap.length

theorem validA_ne_zero {s : Queue α} {a : Nat} (h : s.validA a) : a ≠ 0 := by
  rcases h with ⟨-, h1, -⟩; omega

theorem getNode_isSome {s : Queue α} {a : Nat} (h : s.validA a) :
    ∃ nd, s.getNode a = some nd := by
  rcases h with ⟨-, -, hlt⟩
  rw [getNode]
  rcases List.getElem?_eq_some_iff.mpr ⟨hlt, rfl⟩ with h
  exact ⟨_, h⟩

theorem length_setNode (s : Queue α) (a : Nat) (nd : Node α) :
    (s.setNode a nd).heap.length = s.heap.length := by
  rw [setNode]; exact List.length_set s.heap (idxOf a) nd

theorem getNode_setNode_self {s : Queue α} {a : Nat} (nd : Node α)
    (h : idxOf a < s.heap.length) :
    (s.setNode a nd).getNode a = some nd := by
  rw [setNode, getNode]
  exact List.getElem?_set_eq_of_lt nd h

theorem getNode_setNode_ne {s : Queue α} {a b : Nat} (nd : Node α)
    (h : idxOf a ≠ idxOf b) :
    (s.setNode a nd).getNode b = s.getNode b := by
  rw [setNode, getNode, getNode]
  exact List.getElem?_set_ne h

/-- Addresses of distinct valid nodes have distinct heap indices. -/
theorem getNode_setNode_of_ne {s : Queue α} {a b : Nat} (nd : Node α)
    (ha : a % 2 = 0) (ha1 : 2 ≤ a) (hb : b % 2 = 0) (hb1 : 2 ≤ b)
    (hne : a ≠ b) :
    (s.setNode a nd).getNode b = s.getNode b := by
  refine getNode_setNode_ne nd (fun h => hne ?_)
  exact idxOf_inj ha ha1 hb hb1 h

theorem validA_setNode {s : Queue α} {a b : Nat} (nd : Node α) :
    (s.setNode a nd).validA b ↔ s.validA b := by
  rw [validA, validA, length_setNode]

theorem getNode_allocNode {s : Queue α} {a : Nat}
    (h : idxOf a < s.heap.length) :
    s.allocNode.2.getNode a = s.getNode a := by
  rw [allocNode, getNode, getNode]
  simp only
  rw [List.getElem?_append]
  simp [h]

theorem getNode_allocNode_fresh (s : Queue α) :
    s.allocNode.2.getNode s.allocNode.1 = some ⟨none, TaggedPtr.null⟩ := by
  rw [allocNode, getNode]
  simp only [idxOf_addrOf]
  exact List.getElem?_concat_length s.heap _

theorem validA_allocNode {s : Queue α} {b : Nat} (h : s.validA b) :
    s.allocNode.2.validA b := by
  rcases h with ⟨h2, h1, hlt⟩
  refine ⟨h2, h1, ?_⟩
  rw [allocNode]
  simp only [List.length_append, List.length_cons, List.length_nil]
  omega

theorem validA_allocNode_fresh (s : Queue α) :
    s.allocNode.2.validA s.allocNode.1 := by
  rw [allocNode, validA]
  refine ⟨addrOf_even _, by rw [addrOf]; omega, ?_⟩
  simp only [idxOf_addrOf, List.length_append, List.length_cons, List.length_nil]
  omega

/-- The fresh address produced by `allocNode` is no existing valid address. -/
theorem allocNode_fresh_ne {s : Queue α} {b : Nat} (h : s.validA b) :
    b ≠ s.allocNode.1 := by
  rcases h with ⟨h2, h1, hlt⟩
  rw [allocNode]
  simp only
  intro hb
  rw [hb, idxOf_addrOf] at hlt
  omega

/-- The value stored at an address (the union member while live). -/
def valAt (s : Queue α) (a : Nat) : Option α := (s.getNode a).bind Node.value

/-- `isListT s l h t`: starting from pointer `h`, the `next.ptr()` links
visit exactly the addresses in `l` and then reach `t`. -/
def isListT (s : Queue α) : List Nat → Nat → Nat → Prop
  | [], h, t => h = t
  | a :: rest, h, t => h = a ∧ ∃ nd, s.getNode a = some nd ∧ isListT s rest nd.next.ptr t

theorem isListT_nil {s : Queue α} {h t : Nat} : isListT s [] h t ↔ h = t := Iff.rfl

theorem isListT_cons {s : Queue α} {a : Nat} {rest : List Nat} {h t : Nat} :
    isListT s (a :: rest) h t ↔
      h = a ∧ ∃ nd, s.getNode a = some nd ∧ isListT s rest nd.next.ptr t := Iff.rfl

theorem isListT_congr {s s' : Queue α} :
    ∀ {l : List Nat} {h t : Nat},
      (∀ a ∈ l, s'.getNode a = s.getNode a) → isListT s l h t → isListT s' l h t := by
  intro l
  induction l with
  | nil => intro h t _ hl; exact hl
  | cons a rest ih =>
    intro h t hsame hl
    obtain ⟨ha, nd, hnd, hrest⟩ := hl
    refine ⟨ha, nd, ?_, ?_⟩
    · rw [hsame a (by simp)]; exact hnd
    · exact ih (fun b hb => hsame b (by simp [hb])) hrest

theorem isListT_append {s : Queue α} :
    ∀ {l₁ l₂ : List Nat} {h m t : Nat},
      isListT s l₁ h m → isListT s l₂ m t → isListT s (l₁ ++ l₂) h t := by
  intro l₁
  induction l₁ with
  | nil => intro l₂ h m t h1 h2; rw [isListT] at h1; rw [List.nil_append, h1]; exact h2
  | cons a rest ih =>
    intro l₂ h m t h1 h2
    rcases h1 with ⟨rfl, nd, hnd, hrest⟩
    exact ⟨rfl, nd, hnd, ih hrest h2⟩

/-- The last address of a chain (`0` for the empty chain). -/
def lastAddr : List Nat → Nat
  | [] => 0
  | [a] => a
  | _ :: b :: rest => lastAddr (b :: rest)

theorem lastAddr_cons_cons (a b : Nat) (rest : List Nat) :
    lastAddr (a :: b :: rest) = lastAddr (b :: rest) := rfl

theorem lastAddr_mem : ∀ {l : List Nat}, l ≠ [] → lastAddr l ∈ l := by
  intro l
  induction l with
  | nil => intro h; exact absurd rfl h
  | cons a rest ih =>
    intro _
    cases rest with
    | nil => exact List.mem_singleton.mpr rfl
    | cons b rest' =>
      rw [lastAddr_cons_cons]
      exact List.mem_cons_of_mem a (ih (by simp))

theorem lastAddr_append_single : ∀ (l : List Nat) (b : Nat), lastAddr (l ++ [b]) = b := by
  intro l
  induction l with
  | nil => intro b; rfl
  | cons a rest ih =>
    intro b
    cases rest with
    | nil => rfl
    | cons c rest' =>
      rw [List.cons_append, List.cons_append, lastAddr_cons_cons, ← List.cons_append]
      exact ih b

/-- Splitting a null-terminated chain at its last node: the last node's
`next.ptr()` is null, and the chain before it reaches the last node. -/
theorem isListT_split_last {s : Queue α} :
    ∀ {l : List Nat} {h : Nat}, l ≠ [] → isListT s l h 0 →
      ∃ l₀, l = l₀ ++ [lastAddr l] ∧ isListT s l₀ h (lastAddr l) ∧
        ∃ nd, s.getNode (lastAddr l) = some nd ∧ nd.next.ptr = 0 := by
  intro l
  induction l with
  | nil => intro h hne; exact absurd rfl hne
  | cons a rest ih =>
    intro h _ hl
    obtain ⟨ha, nd, hnd, hrest⟩ := hl
    cases rest with
    | nil =>
      rw [isListT_nil] at hrest
      exact ⟨[], rfl, ha, nd, hnd, hrest⟩
    | cons b rest' =>
      rcases ih (by simp) hrest with ⟨l₀, heq, hl₀, nd', hnd', hptr⟩
      refine ⟨a :: l₀, ?_, ⟨ha, nd, hnd, ?_⟩, nd', hnd', hptr⟩
      · rw [lastAddr_cons_cons, List.cons_append, ← heq]
      · rw [← lastAddr_cons_cons a]; exact hl₀

/-- The abstract queue data: addresses of retired/free nodes and the chain. -/
structure Rep where
  chain : List Nat
  free : List Nat

/-- `s` is a well-formed queue whose main chain (sentinel first) is
`r.chain` and whose free list is `r.free`. -/
structure Represents (s : Queue α) (r : Rep) : Prop where
  chain_ne : r.chain ≠ []
  chain_ok : isListT s r.chain s.before_first 0
  free_ok : isListT s r.free s.free_list 0
  last_eq : s.last = lastAddr r.chain
  nodup : (r.chain ++ r.free).Nodup
  valid : ∀ a ∈ r.chain ++ r.free, s.validA a
  vals : ∀ a ∈ r.chain.tail, ∃ v, s.valAt a = some v

/-- The sequence of unconsumed values: the values of the chain past the
sentinel, in link order. -/
def absR (s : Queue α) (r : Rep) : List α := r.chain.tail.filterMap s.valAt

theorem Represents_init (α : Type) : Represents (init α) ⟨[addrOf 0], []⟩ := by
  refine ⟨by simp, ?_, ?_, rfl, by simp, ?_, by simp⟩
  · rw [isListT_cons]
    refine ⟨rfl, ⟨none, TaggedPtr.null⟩, rfl, ?_⟩
    rw [isListT_nil]
    simp [TaggedPtr.null, TaggedPtr.ptr]
  · rw [isListT_nil]
    rfl
  · intro a ha
    simp only [List.append_nil, List.mem_singleton] at ha
    rw [ha, init, validA]
    refine ⟨addrOf_even 0, by rw [addrOf], by rw [idxOf_addrOf]; simp⟩

theorem absR_init (α : Type) : absR (init α) ⟨[addrOf 0], []⟩ = [] := rfl

theorem getNode_last_update (s : Queue α) (x a : Nat) :
    ({ s with last := x } : Queue α).getNode a = s.getNode a := rfl

theorem getNode_free_update (s : Queue α) (x a : Nat) :
    ({ s with free_list := x } : Queue α).getNode a = s.getNode a := rfl

theorem getNode_bf_update (s : Queue α) (x a : Nat) :
    ({ s with before_first := x } : Queue α).getNode a = s.getNode a := rfl

theorem isListT_head_even {s : Queue α} {fr : List Nat} {fl : Nat}
    (h : isListT s fr fl 0) (hv : ∀ a ∈ fr, s.validA a) : fl % 2 = 0 := by
  cases fr with
  | nil => rw [isListT_nil] at h; omega
  | cons b bs =>
    obtain ⟨rfl, -⟩ := h
    exact (hv fl (by simp)).1

theorem tail_append_of_ne_nil {c : List Nat} (l : List Nat) (h : c ≠ []) :
    (c ++ l).tail = c.tail ++ l := by
  cases c with
  | nil => exact absurd rfl h
  | cons a c' => rfl

/-- The state of the queue after `push_back` finishes, starting from the
point where the node for the new element has been picked (`nodeA`) and the
free list already updated: constructing the value, marking the node busy,
and appending it via `push_back_node` succeed and extend the chain. -/
theorem push_finish (s₂ : Queue α) (c fr' : List Nat) (nodeA : Nat) (v : α)
    (hc_ne : c ≠ [])
    (hc : isListT s₂ c s₂.before_first 0)
    (hfr : isListT s₂ fr' s₂.free_list 0)
    (hlast : s₂.last = lastAddr c)
    (hnodup : (c ++ fr').Nodup)
    (hvalid : ∀ a ∈ c ++ fr', s₂.validA a)
    (hvals : ∀ a ∈ c.tail, ∃ w, s₂.valAt a = some w)
    (hnodeV : s₂.validA nodeA)
    (hnodeNotin : nodeA ∉ c ++ fr') :
    ∃ s', (s₂.setNode nodeA ⟨some v, TaggedPtr.ofPtrBit 0 true⟩).push_back_node nodeA = some s' ∧
      Represents s' ⟨c ++ [nodeA], fr'⟩ ∧
      absR s' ⟨c ++ [nodeA], fr'⟩ = absR s₂ ⟨c, fr'⟩ ++ [v] ∧
      s'.before_first = s₂.before_first ∧
      s'.free_list = s₂.free_list ∧
      s'.allocCount = s₂.allocCount ∧
      s'.heap.length = s₂.heap.length ∧
      s'.last = nodeA ∧
      (∀ a ∈ fr', s'.getNode a = s₂.getNode a) := by
  obtain ⟨c₀, hcdec, hc₀, lastNd, hlastNd, hlastPtr⟩ := isListT_split_last hc_ne hc
  have hlaMem : lastAddr c ∈ c := lastAddr_mem hc_ne
  generalize hla : lastAddr c = la at hcdec hc₀ hlastNd hlast hlaMem
  have hlastValid : s₂.validA la := hvalid _ (by simp [hlaMem])
  have hNodeNeLast : nodeA ≠ la := by
    intro h
    exact hnodeNotin (by rw [h]; simp [hlaMem])
  have hIdx : idxOf nodeA < s₂.heap.length := hnodeV.2.2
  -- s₃: value constructed into the node, node marked busy
  have hs₃node : (s₂.setNode nodeA ⟨some v, TaggedPtr.ofPtrBit 0 true⟩).getNode nodeA =
      some ⟨some v, TaggedPtr.ofPtrBit 0 true⟩ := getNode_setNode_self _ hIdx
  have hs₃other : ∀ a, a % 2 = 0 → 2 ≤ a → a ≠ nodeA →
      (s₂.setNode nodeA ⟨some v, TaggedPtr.ofPtrBit 0 true⟩).getNode a = s₂.getNode a := by
    intro a h2 h1 hne
    exact getNode_setNode_of_ne _ hnodeV.1 hnodeV.2.1 h2 h1 (fun h => hne h.symm)
  set s₃ := s₂.setNode nodeA ⟨some v, TaggedPtr.ofPtrBit 0 true⟩ with hs₃def
  have hs₃last : s₃.getNode (la) = s₂.getNode (la) :=
    hs₃other _ hlastValid.1 hlastValid.2.1 (Ne.symm hNodeNeLast)
  -- push_back_node takes the successful CAS branch
  have hlast₃ : s₃.last = la := hlast
  set s₄ := s₃.setNode (la) { lastNd with next := TaggedPtr.ofPtrBit nodeA true }
    with hs₄def
  set s' : Queue α := { s₄ with last := nodeA } with hsFin
  have hrun' : s₃.push_back_node nodeA = some s' := by
    rw [push_back_node, hlast₃, hs₃last, hlastNd]
    dsimp only
    rw [if_pos hlastPtr]
  -- how each node reads in s'
  have hg_other : ∀ a, a % 2 = 0 → 2 ≤ a → a ≠ nodeA → a ≠ la →
      s'.getNode a = s₂.getNode a := by
    intro a h2 h1 hne1 hne2
    rw [hsFin, getNode_last_update, hs₄def,
      getNode_setNode_of_ne _ hlastValid.1 hlastValid.2.1 h2 h1 (fun h => hne2 h.symm)]
    exact hs₃other a h2 h1 hne1
  have hg_node : s'.getNode nodeA = some ⟨some v, TaggedPtr.ofPtrBit 0 true⟩ := by
    rw [hsFin, getNode_last_update, hs₄def,
      getNode_setNode_of_ne _ hlastValid.1 hlastValid.2.1 hnodeV.1 hnodeV.2.1
        (Ne.symm hNodeNeLast)]
    exact hs₃node
  have hg_last : s'.getNode (la) =
      some { lastNd with next := TaggedPtr.ofPtrBit nodeA true } := by
    rw [hsFin, getNode_last_update, hs₄def]
    exact getNode_setNode_self _ (by rw [length_setNode]; exact hlastValid.2.2)
  have hlen : s'.heap.length = s₂.heap.length := by
    rw [hsFin]
    show s₄.heap.length = _
    rw [hs₄def, length_setNode, hs₃def, length_setNode]
  have hvalid' : ∀ a, s₂.validA a → s'.validA a := by
    intro a ⟨x1, x2, x3⟩
    exact ⟨x1, x2, by rw [hlen]; exact x3⟩
  -- value storage is unchanged except at nodeA
  have hval_other : ∀ a, a % 2 = 0 → 2 ≤ a → a ≠ nodeA → s'.valAt a = s₂.valAt a := by
    intro a h2 h1 hne
    by_cases hala : a = la
    · rw [valAt, valAt, hala, hg_last, hlastNd]
      rfl
    · rw [valAt, valAt, hg_other a h2 h1 hne hala]
  have hchain_mem_valid : ∀ a ∈ c, s₂.validA a := fun a ha => hvalid a (by simp [ha])
  have hfr_mem_valid : ∀ a ∈ fr', s₂.validA a := fun a ha => hvalid a (by simp [ha])
  have hfr_unch : ∀ a ∈ fr', s'.getNode a = s₂.getNode a := by
    intro a ha
    have hv := hfr_mem_valid a ha
    have hne1 : a ≠ nodeA := fun h => hnodeNotin (h ▸ (by simp [ha]))
    have hne2 : a ≠ la := by
      intro h
      have := (List.nodup_append.mp hnodup).2.2
      exact this hlaMem (h ▸ ha)
    exact hg_other a hv.1 hv.2.1 hne1 hne2
  refine ⟨s', hrun', ?_, ?_, rfl, rfl, ?_, hlen, rfl, hfr_unch⟩
  · -- Represents s' ⟨c ++ [nodeA], fr'⟩
    have hlastNotc₀ : la ∉ c₀ := by
      have : c.Nodup := (List.nodup_append.mp hnodup).1
      rw [hcdec] at this
      have := List.nodup_append.mp this
      intro hmem
      exact this.2.2 hmem (by simp)
    have hNodeNotc₀ : nodeA ∉ c₀ := fun h => hnodeNotin (by simp [hcdec, h])
    refine ⟨by simp, ?_, ?_, ?_, ?_, ?_, ?_⟩
    · -- chain_ok
      have hbf' : s'.before_first = s₂.before_first := rfl
      have hc₀' : isListT s' c₀ s'.before_first (la) := by
        rw [hbf']
        refine isListT_congr (fun a ha => ?_) hc₀
        have hv := hchain_mem_valid a (by rw [hcdec]; simp [ha])
        exact hg_other a hv.1 hv.2.1 (fun h => hNodeNotc₀ (h ▸ ha))
          (fun h => hlastNotc₀ (h ▸ ha))
      have htail : isListT s' [la, nodeA] (la) 0 := by
        rw [isListT_cons]
        refine ⟨rfl, _, hg_last, ?_⟩
        show isListT s' [nodeA] (TaggedPtr.ofPtrBit nodeA true).ptr 0
        rw [isListT_cons]
        refine ⟨TaggedPtr.ptr_ofPtrBit hnodeV.1 true, _, hg_node, ?_⟩
        show isListT s' [] (TaggedPtr.ofPtrBit 0 true).ptr 0
        rw [isListT_nil]
        exact TaggedPtr.ptr_ofPtrBit (by omega) true
      have := isListT_append hc₀' htail
      rw [show c₀ ++ [la, nodeA] = (c₀ ++ [la]) ++ [nodeA] by simp] at this
      rw [← hcdec] at this
      exact this
    · -- free_ok
      show isListT s' fr' s'.free_list 0
      have hfl : s'.free_list = s₂.free_list := rfl
      rw [hfl]
      exact isListT_congr hfr_unch hfr
    · -- last_eq
      show s'.last = lastAddr (c ++ [nodeA])
      rw [lastAddr_append_single]
    · -- nodup
      have hperm : List.Perm ((c ++ [nodeA]) ++ fr') (nodeA :: (c ++ fr')) := by
        rw [List.append_assoc]
        exact List.perm_middle
      exact hperm.symm.nodup (List.nodup_cons.mpr ⟨hnodeNotin, hnodup⟩)
    · -- valid
      intro a ha
      simp only [List.append_assoc, List.mem_append, List.mem_singleton] at ha
      rcases ha with ha | ha | ha
      · exact hvalid' a (hchain_mem_valid a ha)
      · exact hvalid' a (ha ▸ hnodeV)
      · exact hvalid' a (hfr_mem_valid a ha)
    · -- vals
      intro a ha
      rw [tail_append_of_ne_nil [nodeA] hc_ne, List.mem_append, List.mem_singleton] at ha
      rcases ha with ha | rfl
      · obtain ⟨w, hw⟩ := hvals a ha
        have hv := hchain_mem_valid a (List.mem_of_mem_tail ha)
        refine ⟨w, ?_⟩
        rw [hval_other a hv.1 hv.2.1 (fun h => hnodeNotin (by simp [h ▸ List.mem_of_mem_tail ha]))]
        exact hw
      · exact ⟨v, by rw [valAt, hg_node]; rfl⟩
  · -- absR equation
    rw [absR, absR, tail_append_of_ne_nil [nodeA] hc_ne, List.filterMap_append]
    congr 1
    · refine List.filterMap_congr (fun a ha => ?_)
      have hv := hchain_mem_valid a (List.mem_of_mem_tail ha)
      exact hval_other a hv.1 hv.2.1
        (fun h => hnodeNotin (by simp [h ▸ List.mem_of_mem_tail ha]))
    · rw [List.filterMap_cons, valAt, hg_node]
      rfl
  · -- allocCount
    rfl

theorem isListT_allocNode {s : Queue α} {l : List Nat} {h t : Nat}
    (hv : ∀ a ∈ l, s.validA a) (hl : isListT s l h t) :
    isListT s.allocNode.2 l h t :=
  isListT_congr (fun a ha => getNode_allocNode (hv a ha).2.2) hl

theorem absR_allocNode (s : Queue α) (r : Rep)
    (hv : ∀ a ∈ r.chain.tail, s.validA a) :
    absR s.allocNode.2 r = absR s r := by
  rw [absR, absR]
  refine List.filterMap_congr (fun a ha => ?_)
  rw [valAt, valAt, getNode_allocNode (hv a ha).2.2]

theorem isListT_free_update {s : Queue α} {l : List Nat} {h t : Nat} (x : Nat)
    (hl : isListT s l h t) : isListT ({ s with free_list := x } : Queue α) l h t :=
  @isListT_congr α s { s with free_list := x } l h t
    (fun a _ => getNode_free_update s x a) hl

/-- Effect of one `push_back` on a well-formed queue: it succeeds, the
pushed value is appended to the abstract queue, and the node holding it is
either the non-busy head of the free list or a fresh allocation. -/
theorem push_spec (s : Queue α) (r : Rep) (v : α) (h : Represents s r) :
    ∃ s' nodeA fr',
      s.push_back v = some s' ∧
      Represents s' ⟨r.chain ++ [nodeA], fr'⟩ ∧
      absR s' ⟨r.chain ++ [nodeA], fr'⟩ = absR s r ++ [v] ∧
      s'.before_first = s.before_first ∧
      (∀ a ∈ fr', s'.getNode a = s.getNode a) ∧
      ((∃ b bs nd, r.free = b :: bs ∧ s.getNode b = some nd ∧ nd.next.bit = false ∧
          nodeA = b ∧ fr' = bs ∧ s'.heap.length = s.heap.length ∧
          s'.allocCount = s.allocCount ∧ s'.free_list = nd.next.ptr) ∨
        ((r.free = [] ∨ ∃ b bs nd, r.free = b :: bs ∧ s.getNode b = some nd ∧
            nd.next.bit = true) ∧
          fr' = r.free ∧ nodeA = addrOf s.heap.length ∧
          s'.heap.length = s.heap.length + 1 ∧
          s'.allocCount = s.allocCount + 1 ∧ s'.free_list = s.free_list)) := by
  obtain ⟨hc_ne, hc, hfr, hlast, hnodup, hvalid, hvals⟩ := h
  have hchain_valid : ∀ a ∈ r.chain, s.validA a := fun a ha => hvalid a (by simp [ha])
  have hfree_valid : ∀ a ∈ r.free, s.validA a := fun a ha => hvalid a (by simp [ha])
  have htail_valid : ∀ a ∈ r.chain.tail, s.validA a :=
    fun a ha => hchain_valid a (List.mem_of_mem_tail ha)
  by_cases hfl0 : s.free_list = 0
  · -- free list empty: allocate a fresh node
    have hfree_nil : r.free = [] := by
      cases hfr' : r.free with
      | nil => rfl
      | cons b bs =>
        rw [hfr'] at hfr
        obtain ⟨hb, -⟩ := hfr
        have := (hfree_valid b (by rw [hfr']; simp)).2.1
        omega
    have hacq : s.acquireNode = some (none, s) := by
      rw [acquireNode, if_pos hfl0]
    -- the state after `new Node`
    have hvalid₂ : ∀ a ∈ r.chain ++ r.free, s.allocNode.2.validA a :=
      fun a ha => validA_allocNode (hvalid a ha)
    have hfin := push_finish s.allocNode.2 r.chain r.free s.allocNode.1 v hc_ne
      (isListT_allocNode hchain_valid hc)
      (isListT_allocNode hfree_valid hfr)
      hlast hnodup hvalid₂
      (fun a ha => by
        obtain ⟨w, hw⟩ := hvals a ha
        exact ⟨w, by rw [valAt, getNode_allocNode (htail_valid a ha).2.2]; exact hw⟩)
      (validA_allocNode_fresh s)
      (fun hmem => allocNode_fresh_ne (hvalid _ hmem) rfl)
    obtain ⟨s', hrun, hrep, habs, hbf, hfl, hac, hlen, -, hfrunch⟩ := hfin
    refine ⟨s', s.allocNode.1, r.free, ?_, hrep, ?_, hbf, ?_, Or.inr ⟨Or.inl hfree_nil, rfl, rfl, ?_, ?_, ?_⟩⟩
    · rw [push_back, hacq]
      dsimp only
      rw [getNode_allocNode_fresh]
      exact hrun
    · rw [habs, absR_allocNode s r htail_valid]
    · intro a ha
      rw [hfrunch a ha, getNode_allocNode (hfree_valid a ha).2.2]
    · rw [hlen, allocNode]
      simp
    · rw [hac, allocNode]
    · rw [hfl, allocNode]
  · -- free list nonempty
    cases hfr' : r.free with
    | nil => rw [hfr'] at hfr; exact absurd hfr hfl0
    | cons b bs =>
      rw [hfr'] at hfr
      obtain ⟨hbfl, nd, hndb, hbs⟩ := hfr
      have hbvalid : s.validA b := hfree_valid b (by rw [hfr']; simp)
      have hndfl : s.getNode s.free_list = some nd := by rw [hbfl]; exact hndb
      cases hbit : nd.next.bit
      · -- head of free list is not busy: reuse it
        have hacq : s.acquireNode =
            some (some s.free_list, { s with free_list := nd.next.ptr }) := by
          rw [acquireNode, if_neg hfl0, hndfl]
          dsimp only
          rw [if_neg (by simp [hbit])]
        have hnodup₂ : (r.chain ++ (b :: bs)).Nodup := by
          rw [hfr'] at hnodup
          exact hnodup
        have hnodup' : (r.chain ++ bs).Nodup :=
          List.Nodup.sublist
            (List.Sublist.append_left (List.sublist_cons_self b bs) r.chain) hnodup₂
        have hbNotin : b ∉ r.chain ++ bs := by
          intro hmem
          rw [List.mem_append] at hmem
          rcases hmem with hmem | hmem
          · exact (List.nodup_append.mp hnodup₂).2.2 hmem (by simp)
          · have := (List.nodup_append.mp hnodup₂).2.1
            exact (List.nodup_cons.mp this).1 hmem
        have hfin := push_finish ({ s with free_list := nd.next.ptr } : Queue α)
          r.chain bs b v hc_ne
          (isListT_free_update _ hc)
          (isListT_free_update _ hbs)
          hlast hnodup'
          (fun a ha => hvalid a (by
            rw [List.mem_append] at ha
            rcases ha with ha | ha
            · simp [ha]
            · rw [hfr']; simp [ha]))
          hvals hbvalid hbNotin
        obtain ⟨s', hrun, hrep, habs, hbf, hfl, hac, hlen, -, hfrunch⟩ := hfin
        have hnd₂ : ({ s with free_list := nd.next.ptr } : Queue α).getNode b = some nd := hndb
        refine ⟨s', b, bs, ?_, hrep, habs, hbf, hfrunch,
          Or.inl ⟨b, bs, nd, rfl, hndb, hbit, rfl, rfl, hlen, hac, hfl⟩⟩
        rw [push_back, hacq]
        dsimp only
        rw [hbfl, hnd₂]
        dsimp only
        exact hrun
      · -- head of free list is busy: bail and allocate fresh
        have hacq : s.acquireNode = some (none, s) := by
          rw [acquireNode, if_neg hfl0, hndfl]
          dsimp only
          rw [if_pos hbit]
        have hvalid₂ : ∀ a ∈ r.chain ++ r.free, s.allocNode.2.validA a :=
          fun a ha => validA_allocNode (hvalid a ha)
        have hfin := push_finish s.allocNode.2 r.chain r.free s.allocNode.1 v hc_ne
          (isListT_allocNode hchain_valid hc)
          (isListT_allocNode hfree_valid (by rw [hfr']; exact ⟨hbfl, nd, hndb, hbs⟩))
          hlast hnodup hvalid₂
          (fun a ha => by
            obtain ⟨w, hw⟩ := hvals a ha
            exact ⟨w, by rw [valAt, getNode_allocNode (htail_valid a ha).2.2]; exact hw⟩)
          (validA_allocNode_fresh s)
          (fun hmem => allocNode_fresh_ne (hvalid _ hmem) rfl)
        obtain ⟨s', hrun, hrep, habs, hbf, hfl, hac, hlen, -, hfrunch⟩ := hfin
        refine ⟨s', s.allocNode.1, r.free, ?_, hrep, ?_, hbf, ?_,
          Or.inr ⟨Or.inr ⟨b, bs, nd, rfl, hndb, hbit⟩, hfr', rfl, ?_, ?_, ?_⟩⟩
        · rw [push_back, hacq]
          dsimp only
          rw [getNode_allocNode_fresh]
          exact hrun
        · rw [habs, absR_allocNode s r htail_valid]
        · intro a ha
          rw [hfrunch a ha, getNode_allocNode (hfree_valid a ha).2.2]
        · rw [hlen, allocNode]
          simp
        · rw [hac, allocNode]
        · rw [hfl, allocNode]

/-- `try_pop_front` on a well-formed queue with no unconsumed element
returns the empty optional and leaves the state entirely unchanged. -/
theorem pop_spec_empty (s : Queue α) (r : Rep) (h : Represents s r)
    (hone : r.chain.tail = []) :
    s.try_pop_front = some (none, s) := by
  obtain ⟨hc_ne, hc, -, -, -, -, -⟩ := h
  cases hch : r.chain with
  | nil => exact absurd hch hc_ne
  | cons a0 tl =>
    rw [hch] at hone hc
    simp only [List.tail_cons] at hone
    rw [hone] at hc
    obtain ⟨hbf, nd0, hnd0, hnil⟩ := hc
    rw [isListT_nil] at hnil
    rw [try_pop_front, hbf, hnd0]
    dsimp only
    rw [if_pos hnil]

/-- Effect of a successful `try_pop_front` on a well-formed queue with at
least one unconsumed element: the first element's value is returned, the
chain advances by one, and the old sentinel is retired onto the free list
with its `next` pointer part overwritten by the old free-list head and its
tag bit preserved. -/
theorem pop_spec_cons (s : Queue α) (r : Rep) (a0 a1 : Nat) (rest : List Nat)
    (h : Represents s r) (hch : r.chain = a0 :: a1 :: rest) :
    ∃ v s' nd1 nd0,
      s.getNode a0 = some nd0 ∧
      s.getNode a1 = some nd1 ∧
      nd1.value = some v ∧
      s.try_pop_front = some (some v, s') ∧
      Represents s' ⟨a1 :: rest, a0 :: r.free⟩ ∧
      absR s r = v :: absR s' ⟨a1 :: rest, a0 :: r.free⟩ ∧
      s'.before_first = a1 ∧
      s'.free_list = a0 ∧
      s'.last = s.last ∧
      s'.heap.length = s.heap.length ∧
      s'.allocCount = s.allocCount ∧
      (∀ a ∈ r.free, s'.getNode a = s.getNode a) ∧
      s'.getNode a0 = some ⟨nd0.value, TaggedPtr.ofPtrBit s.free_list nd0.next.bit⟩ := by
  obtain ⟨hc_ne, hc, hfr, hlast, hnodup, hvalid, hvals⟩ := h
  rw [hch] at hc hnodup
  obtain ⟨hbf, nd0, hnd0, hc1⟩ := hc
  obtain ⟨hp01, nd1, hnd1, hrest⟩ := hc1
  have ha0valid : s.validA a0 := hvalid a0 (by rw [hch]; simp)
  have ha1valid : s.validA a1 := hvalid a1 (by rw [hch]; simp)
  have hfree_valid : ∀ a ∈ r.free, s.validA a := fun a ha => hvalid a (by simp [ha])
  have hrest_valid : ∀ a ∈ rest, s.validA a := fun a ha => hvalid a (by rw [hch]; simp [ha])
  obtain ⟨v, hv⟩ := hvals a1 (by rw [hch]; simp)
  rw [valAt, hnd1] at hv
  have hv' : nd1.value = some v := hv
  have ha01 : a0 ≠ a1 := by
    intro hq
    rw [List.nodup_append] at hnodup
    have := List.nodup_cons.mp hnodup.1
    exact this.1 (hq ▸ (by simp))
  have ha1ne0 : a1 ≠ 0 := validA_ne_zero ha1valid
  -- the successive states of the pop
  set s1 : Queue α := { s with before_first := a1 } with hs1def
  set s2 := s1.setNode a1 ⟨none, TaggedPtr.ofPtrBit nd1.next.ptr false⟩ with hs2def
  have hnd1₁ : ({ s with before_first := a1 } : Queue α).getNode a1 = some nd1 := hnd1
  have hg2_a0 : s2.getNode a0 = some nd0 := by
    rw [hs2def, getNode_setNode_of_ne _ ha1valid.1 ha1valid.2.1 ha0valid.1 ha0valid.2.1
      (Ne.symm ha01)]
    exact hnd0
  set s3 := s2.setNode a0 ⟨nd0.value, TaggedPtr.ofPtrBit s.free_list nd0.next.bit⟩ with hs3def
  set s' : Queue α := { s3 with free_list := a0 } with hsFin
  have hrun : s.try_pop_front = some (some v, s') := by
    rw [try_pop_front, hbf, hnd0]
    dsimp only
    rw [hp01, if_neg ha1ne0, hnd1₁]
    dsimp only
    rw [hv']
    dsimp only
    rw [hg2_a0]
    dsimp only
    rfl
  -- node reads in the final state
  have hg_a1 : s'.getNode a1 = some ⟨none, TaggedPtr.ofPtrBit nd1.next.ptr false⟩ := by
    rw [hsFin, getNode_free_update, hs3def,
      getNode_setNode_of_ne _ ha0valid.1 ha0valid.2.1 ha1valid.1 ha1valid.2.1 ha01, hs2def]
    exact getNode_setNode_self _ ha1valid.2.2
  have hg_a0 : s'.getNode a0 = some ⟨nd0.value, TaggedPtr.ofPtrBit s.free_list nd0.next.bit⟩ := by
    rw [hsFin, getNode_free_update, hs3def]
    exact getNode_setNode_self _ (by rw [length_setNode]; exact ha0valid.2.2)
  have hg_other : ∀ a, a % 2 = 0 → 2 ≤ a → a ≠ a0 → a ≠ a1 → s'.getNode a = s.getNode a := by
    intro a h2 h1 hne0 hne1
    rw [hsFin, getNode_free_update, hs3def,
      getNode_setNode_of_ne _ ha0valid.1 ha0valid.2.1 h2 h1 (fun hq => hne0 hq.symm), hs2def,
      getNode_setNode_of_ne _ ha1valid.1 ha1valid.2.1 h2 h1 (fun hq => hne1 hq.symm)]
    exact getNode_bf_update s a1 a
  have hlen : s'.heap.length = s.heap.length := by
    rw [hsFin]
    show s3.heap.length = _
    rw [hs3def, length_setNode, hs2def, length_setNode]
  have hvalid' : ∀ a, s.validA a → s'.validA a := by
    intro a ⟨x1, x2, x3⟩
    exact ⟨x1, x2, by rw [hlen]; exact x3⟩
  have hrest_nd : ∀ a ∈ rest, a ≠ a0 ∧ a ≠ a1 := by
    intro a ha
    rw [List.nodup_append] at hnodup
    have hnd := hnodup.1
    constructor
    · intro hq
      exact (List.nodup_cons.mp hnd).1 (hq ▸ (by simp [ha]))
    · intro hq
      have := List.nodup_cons.mp (List.nodup_cons.mp hnd).2
      exact this.1 (hq ▸ ha)
  have hfree_nd : ∀ a ∈ r.free, a ≠ a0 ∧ a ≠ a1 := by
    intro a ha
    rw [List.nodup_append] at hnodup
    constructor
    · intro hq
      exact hnodup.2.2 (by simp) (hq ▸ ha)
    · intro hq
      exact hnodup.2.2 (by simp) (hq ▸ ha)
  have hfr_unch : ∀ a ∈ r.free, s'.getNode a = s.getNode a := by
    intro a ha
    have hv := hfree_valid a ha
    exact hg_other a hv.1 hv.2.1 (hfree_nd a ha).1 (hfree_nd a ha).2
  have hrest_unch : ∀ a ∈ rest, s'.getNode a = s.getNode a := by
    intro a ha
    have hv := hrest_valid a ha
    exact hg_other a hv.1 hv.2.1 (hrest_nd a ha).1 (hrest_nd a ha).2
  have hflEven : s.free_list % 2 = 0 := isListT_head_even hfr hfree_valid
  refine ⟨v, s', nd1, nd0, hnd0, hnd1, hv', hrun, ?_, ?_, rfl, rfl, rfl, hlen, rfl,
    hfr_unch, hg_a0⟩
  · -- Represents s' ⟨a1 :: rest, a0 :: r.free⟩
    refine ⟨by simp, ?_, ?_, ?_, ?_, ?_, ?_⟩
    · -- chain_ok
      rw [isListT_cons]
      refine ⟨rfl, _, hg_a1, ?_⟩
      show isListT s' rest (TaggedPtr.ofPtrBit nd1.next.ptr false).ptr 0
      rw [TaggedPtr.ptr_ofPtrBit (TaggedPtr.ptr_even nd1.next)]
      exact isListT_congr hrest_unch hrest
    · -- free_ok
      rw [isListT_cons]
      refine ⟨rfl, _, hg_a0, ?_⟩
      show isListT s' r.free (TaggedPtr.ofPtrBit s.free_list nd0.next.bit).ptr 0
      rw [TaggedPtr.ptr_ofPtrBit hflEven]
      exact isListT_congr hfr_unch hfr
    · -- last_eq
      show s'.last = lastAddr (a1 :: rest)
      have : s'.last = s.last := rfl
      rw [this, hlast, hch, lastAddr_cons_cons]
    · -- nodup
      exact List.Perm.nodup (List.perm_middle).symm hnodup
    · -- valid
      intro a ha
      rcases List.mem_append.mp ha with ha | ha
      · rcases List.mem_cons.mp ha with rfl | ha
        · exact hvalid' a ha1valid
        · exact hvalid' a (hrest_valid a ha)
      · rcases List.mem_cons.mp ha with rfl | ha
        · exact hvalid' a ha0valid
        · exact hvalid' a (hfree_valid a ha)
    · -- vals
      intro a ha
      simp only [List.tail_cons] at ha
      obtain ⟨w, hw⟩ := hvals a (by rw [hch]; simp [ha])
      refine ⟨w, ?_⟩
      rw [valAt, hrest_unch a ha]
      exact hw
  · -- absR equation
    rw [absR, absR, hch]
    simp only [List.tail_cons]
    rw [List.filterMap_cons]
    have hva1 : s.valAt a1 = some v := by rw [valAt, hnd1]; exact hv'
    rw [hva1]
    dsimp only
    congr 1
    refine List.filterMap_congr (fun a ha => ?_)
    rw [valAt, valAt, hrest_unch a ha]

end Queue

theorem run_append {α : Type} (l₁ l₂ : List (Op α)) : ∀ s : Queue α,
    run s (l₁ ++ l₂) =
      (run s l₁).bind (fun p => (run p.1 l₂).map (fun q => (q.1, p.2 ++ q.2))) := by
  induction l₁ with
  | nil =>
    intro s
    rw [List.nil_append]
    show run s l₂ = (run s l₂).map _
    cases run s l₂ with
    | none => rfl
    | some p => simp
  | cons o l₁ ih =>
    intro s
    cases o with
    | push v =>
      rw [List.cons_append, run, run]
      cases s.push_back v with
      | none => rfl
      | some s₂ =>
        dsimp only
        exact ih s₂
    | pop =>
      rw [List.cons_append, run, run]
      cases s.try_pop_front with
      | none => rfl
      | some p =>
        obtain ⟨res, s₂⟩ := p
        dsimp only
        rw [ih s₂]
        cases run s₂ l₁ with
        | none => rfl
        | some q =>
          cases hq2 : run q.1 l₂ with
          | none => simp [hq2]
          | some w => simp [hq2]

/-- Master run invariant: starting from any well-formed queue, any
single-threaded sequence of operations executes successfully, preserves
well-formedness, and the values returned by successful pops followed by
the values still queued equal the values queued initially followed by the
values pushed, in order. -/
theorem run_spec {α : Type} (ops : List (Op α)) :
    ∀ (s : Queue α) (r : Queue.Rep), Queue.Represents s r →
      ∃ s' res r', run s ops = some (s', res) ∧ Queue.Represents s' r' ∧
        res.filterMap id ++ Queue.absR s' r' = Queue.absR s r ++ pushedOf ops := by
  induction ops with
  | nil =>
    intro s r h
    exact ⟨s, [], r, rfl, h, by simp [pushedOf]⟩
  | cons o ops ih =>
    intro s r h
    cases o with
    | push v =>
      obtain ⟨s₂, nodeA, fr', hpb, hrep, habs, -, -, -⟩ := Queue.push_spec s r v h
      obtain ⟨s', res, r', hrun, hrep', heq⟩ := ih s₂ ⟨r.chain ++ [nodeA], fr'⟩ hrep
      refine ⟨s', res, r', ?_, hrep', ?_⟩
      · rw [run, hpb]
        exact hrun
      · rw [heq, habs]
        simp [pushedOf]
    | pop =>
      cases hch : r.chain with
      | nil => exact absurd hch h.chain_ne
      | cons a0 tl =>
        cases tl with
        | nil =>
          have hemp := Queue.pop_spec_empty s r h (by rw [hch]; rfl)
          obtain ⟨s', res, r', hrun, hrep', heq⟩ := ih s r h
          refine ⟨s', none :: res, r', ?_, hrep', ?_⟩
          · rw [run, hemp]
            dsimp only
            rw [hrun]
            rfl
          · simp only [List.filterMap_cons, pushedOf]
            dsimp only [id]
            exact heq
        | cons a1 rest =>
          obtain ⟨v, s₂, nd1, nd0, -, -, -, hpop, hrep, habs, -, -, -, -, -, -, -⟩ :=
            Queue.pop_spec_cons s r a0 a1 rest h hch
          obtain ⟨s', res, r', hrun, hrep', heq⟩ := ih s₂ ⟨a1 :: rest, a0 :: r.free⟩ hrep
          refine ⟨s', some v :: res, r', ?_, hrep', ?_⟩
          · rw [run, hpop]
            dsimp only
            rw [hrun]
            rfl
          · simp only [List.filterMap_cons, pushedOf, habs, List.cons_append]
            dsimp only [id]
            exact congrArg (List.cons v) heq

/-- Running only pushes succeeds, produces no pop results, and appends the
pushed values to the queue. -/
theorem run_pushes {α : Type} (vs : List α) :
    ∀ (s : Queue α) (r : Queue.Rep), Queue.Represents s r →
      ∃ s' r', run s (vs.map Op.push) = some (s', []) ∧ Queue.Represents s' r' ∧
        Queue.absR s' r' = Queue.absR s r ++ vs := by
  induction vs with
  | nil => intro s r h; exact ⟨s, r, rfl, h, by simp⟩
  | cons v vs ih =>
    intro s r h
    obtain ⟨s₂, nodeA, fr', hpb, hrep, habs, -, -, -⟩ := Queue.push_spec s r v h
    obtain ⟨s', r', hrun, hrep', heq⟩ := ih s₂ ⟨r.chain ++ [nodeA], fr'⟩ hrep
    refine ⟨s', r', ?_, hrep', ?_⟩
    · rw [List.map_cons, run, hpb]
      exact hrun
    · rw [heq, habs]
      simp

/-- Running `k` pops returns the first `k` queued values (in order) then
empty results, leaving the values beyond the first `k`. -/
theorem run_pops {α : Type} (k : Nat) :
    ∀ (s : Queue α) (r : Queue.Rep), Queue.Represents s r →
      ∃ s' r', run s (List.replicate k Op.pop) =
          some (s', ((Queue.absR s r).take k).map some ++
            List.replicate (k - (Queue.absR s r).length) none) ∧
        Queue.Represents s' r' ∧ Queue.absR s' r' = (Queue.absR s r).drop k := by
  induction k with
  | zero =>
    intro s r h
    exact ⟨s, r, by simp [run], h, by simp⟩
  | succ k ih =>
    intro s r h
    cases hch : r.chain with
    | nil => exact absurd hch h.chain_ne
    | cons a0 tl =>
      cases tl with
      | nil =>
        have habs0 : Queue.absR s r = [] := by
          rw [Queue.absR, hch]
          simp
        have hemp := Queue.pop_spec_empty s r h (by rw [hch]; rfl)
        obtain ⟨s', r', hrun, hrep', heq⟩ := ih s r h
        refine ⟨s', r', ?_, hrep', by rw [heq, habs0]; simp⟩
        rw [List.replicate_succ, run, hemp]
        dsimp only
        rw [hrun]
        simp [habs0, List.replicate_succ]
      | cons a1 rest =>
        obtain ⟨v, s₂, nd1, nd0, -, -, -, hpop, hrep, habs, -, -, -, -, -, -, -⟩ :=
          Queue.pop_spec_cons s r a0 a1 rest h hch
        obtain ⟨s', r', hrun, hrep', heq⟩ := ih s₂ ⟨a1 :: rest, a0 :: r.free⟩ hrep
        refine ⟨s', r', ?_, hrep', ?_⟩
        · rw [List.replicate_succ, run, hpop]
          dsimp only
          rw [hrun, habs]
          simp
        · rw [heq, habs]
          simp

theorem filterMap_id_map_some {α : Type} (l : List α) :
    (l.map some).filterMap id = l := by
  induction l with
  | nil => rfl
  | cons x l ih => simp [ih]

theorem filterMap_id_replicate_none {α : Type} (n : Nat) :
    (List.replicate n (none : Option α)).filterMap id = [] := by
  induction n with
  | zero => rfl
  | succ n ih => simp [List.replicate_succ, ih]

/-- Shared helper: pushing onto a queue whose free-list head is busy
allocates a fresh node and leaves the free list untouched. -/
theorem Queue.push_busy_head_fresh {α : Type} (s : Queue α) (r : Queue.Rep) (v : α)
    (b : Nat) (bs : List Nat) (nd : Node α)
    (h : Queue.Represents s r) (hfree : r.free = b :: bs)
    (hnd : s.getNode b = some nd) (hbusy : nd.next.bit = true) :
    ∃ s', s.push_back v = some s' ∧
      Queue.Represents s' ⟨r.chain ++ [addrOf s.heap.length], r.free⟩ ∧
      Queue.absR s' ⟨r.chain ++ [addrOf s.heap.length], r.free⟩ = Queue.absR s r ++ [v] ∧
      s'.heap.length = s.heap.length + 1 ∧
      s'.allocCount = s.allocCount + 1 ∧
      s'.free_list = s.free_list ∧
      (∀ x ∈ r.free, s'.getNode x = s.getNode x) := by
  obtain ⟨s', nodeA, fr', hpb, hrep, habs, -, hfrunch, hd⟩ := Queue.push_spec s r v h
  rcases hd with ⟨b', bs', nd', hf', hnd', hbit', -, -, -, -, -⟩ |
    ⟨-, hfr, hnode, hlen, hac, hfl⟩
  · exfalso
    rw [hfree] at hf'
    obtain ⟨hb, -⟩ : b = b' ∧ bs = bs' := by
      injection hf' with h1 h2
      exact ⟨h1, h2⟩
    subst hb
    rw [hnd] at hnd'
    injection hnd' with hnd''
    rw [hnd''] at hbusy
    rw [hbit'] at hbusy
    exact Bool.false_ne_true hbusy
  · subst hfr
    subst hnode
    exact ⟨s', hpb, hrep, habs, hlen, hac, hfl, hfrunch⟩

/-- C1: for every sequence of `push_back` calls followed by
`try_pop_front` calls executed by a single thread, the pops return the
pushed elements in push order: the i-th successful pop returns the i-th
pushed value, and pops beyond the pushed count return empty. -/
theorem C1_fifo_order (α : Type) (vs : List α) (k : Nat) :
    ∃ s₁, run (Queue.init α) (vs.map Op.push ++ List.replicate k Op.pop) =
        some (s₁, (vs.take k).map some ++ List.replicate (k - vs.length) none) ∧
      ((vs.take k).map some ++ List.replicate (k - vs.length) none).filterMap id =
        vs.take k := by
  obtain ⟨s₂, r₂, hrun1, hrep2, habs2⟩ :=
    run_pushes vs (Queue.init α) ⟨[addrOf 0], []⟩ (Queue.Represents_init α)
  rw [Queue.absR_init, List.nil_append] at habs2
  obtain ⟨s₃, r₃, hrun2, -, -⟩ := run_pops k s₂ r₂ hrep2
  rw [habs2] at hrun2
  refine ⟨s₃, ?_, ?_⟩
  · rw [run_append, hrun1, Option.some_bind]
    rw [hrun2]
    rfl
  · rw [List.filterMap_append, filterMap_id_map_some, filterMap_id_replicate_none,
      List.append_nil]

/-- C2: for any single-threaded interleaving of pushes and pops, after
enough additional pops every pushed value has been returned by exactly one
successful pop: the list of successful pop results equals the list of
pushed values, in order (hence as multisets, with no loss and no
duplication). -/
theorem C2_no_loss_no_duplication (α : Type) (ops : List (Op α)) :
    ∃ m s₁ res, run (Queue.init α) (ops ++ List.replicate m Op.pop) = some (s₁, res) ∧
      res.filterMap id = pushedOf ops := by
  obtain ⟨s₂, res₀, r₂, hrun1, hrep2, heq⟩ :=
    run_spec ops (Queue.init α) ⟨[addrOf 0], []⟩ (Queue.Represents_init α)
  rw [Queue.absR_init, List.nil_append] at heq
  obtain ⟨s₃, r₃, hrun2, -, -⟩ := run_pops (Queue.absR s₂ r₂).length s₂ r₂ hrep2
  have hres2 : run s₂ (List.replicate (Queue.absR s₂ r₂).length Op.pop) =
      some (s₃, (Queue.absR s₂ r₂).map some) := by
    rw [hrun2]
    simp
  refine ⟨(Queue.absR s₂ r₂).length, s₃, res₀ ++ (Queue.absR s₂ r₂).map some, ?_, ?_⟩
  · rw [run_append, hrun1, Option.some_bind]
    rw [hres2]
    rfl
  · rw [List.filterMap_append, filterMap_id_map_some]
    exact heq

/-- C3: from a fresh queue, a single thread pushing 1, 2, 3 and then
popping four times receives 1, 2, 3 from the first three pops and an empty
result from the fourth. -/
theorem C3_scenario_a :
    (run (Queue.init Nat)
        [Op.push 1, Op.push 2, Op.push 3, Op.pop, Op.pop, Op.pop, Op.pop]).map
      (fun p => p.2) = some [some 1, some 2, some 3, none] := by
  decide

/-- C5: on any well-formed queue holding no unconsumed element (the fresh
queue included), `try_pop_front` returns the empty optional and leaves the
entire queue state — sentinel, tail, free list and every node — unchanged. -/
theorem C5_pop_empty_noop {α : Type} (s : Queue α) (r : Queue.Rep)
    (h : Queue.Represents s r) (hemp : Queue.absR s r = []) :
    s.try_pop_front = some (none, s) := by
  cases hch : r.chain with
  | nil => exact absurd hch h.chain_ne
  | cons a0 tl =>
    cases htl : tl with
    | nil =>
      refine Queue.pop_spec_empty s r h ?_
      rw [hch, htl]
      rfl
    | cons a1 rest =>
      exfalso
      obtain ⟨v, hv⟩ := h.vals a1 (by rw [hch, htl]; simp)
      rw [Queue.absR, hch, htl] at hemp
      simp only [List.tail_cons, List.filterMap_cons, hv] at hemp
      exact List.cons_ne_nil _ _ hemp

/-- Witness for C5 at the freshly constructed queue. -/
theorem C5_pop_empty_noop_witness :
    (Queue.init Nat).try_pop_front = some (none, Queue.init Nat) :=
  C5_pop_empty_noop (Queue.init Nat) ⟨[addrOf 0], []⟩
    (Queue.Represents_init Nat) (Queue.absR_init Nat)

/-- C9: the tagged-pointer packing is faithful for any 2-aligned pointer:
the constructor's components are recovered by the accessors, each setter
leaves the other component unchanged, and building from a raw word gives
back the same word. -/
theorem C9_taggedptr_algebra (p q w : Nat) (b : Bool) (t : TaggedPtr)
    (hp : p % 2 = 0) (hq : q % 2 = 0) :
    (TaggedPtr.ofPtrBit p b).ptr = p ∧
    (TaggedPtr.ofPtrBit p b).bit = b ∧
    (t.setPtr q).bit = t.bit ∧
    (t.setPtr q).ptr = q ∧
    (t.setBit b).ptr = t.ptr ∧
    (t.setBit b).bit = b ∧
    (TaggedPtr.ofRaw w).raw = w :=
  ⟨TaggedPtr.ptr_ofPtrBit hp b, TaggedPtr.bit_ofPtrBit hp b,
   TaggedPtr.bit_ofPtrBit hq t.bit, TaggedPtr.ptr_ofPtrBit hq t.bit,
   TaggedPtr.ptr_ofPtrBit (TaggedPtr.ptr_even t) b,
   TaggedPtr.bit_ofPtrBit (TaggedPtr.ptr_even t) b, rfl⟩

/-- Witness for C9 at concrete values. -/
theorem C9_taggedptr_algebra_witness :
    (TaggedPtr.ofPtrBit 4 true).ptr = 4 ∧
    (TaggedPtr.ofPtrBit 4 true).bit = true ∧
    ((TaggedPtr.ofRaw 7).setPtr 6).bit = (TaggedPtr.ofRaw 7).bit ∧
    ((TaggedPtr.ofRaw 7).setPtr 6).ptr = 6 ∧
    ((TaggedPtr.ofRaw 7).setBit true).ptr = (TaggedPtr.ofRaw 7).ptr ∧
    ((TaggedPtr.ofRaw 7).setBit true).bit = true ∧
    (TaggedPtr.ofRaw 5).raw = 5 :=
  C9_taggedptr_algebra 4 6 5 true (TaggedPtr.ofRaw 7) (by decide) (by decide)

/-! ## Decidability of the representation predicate on concrete states -/

namespace Queue

/-- Boolean evaluator for `isListT`. -/
def isListTb (s : Queue α) : List Nat → Nat → Nat → Bool
  | [], h, t => h == t
  | a :: rest, h, t =>
    h == a &&
      (match s.getNode a with
       | none => false
       | some nd => isListTb s rest nd.next.ptr t)

theorem isListT_iff_isListTb {s : Queue α} :
    ∀ {l : List Nat} {h t : Nat}, isListT s l h t ↔ isListTb s l h t = true := by
  intro l
  induction l with
  | nil =>
    intro h t
    rw [isListT_nil, isListTb]
    simp
  | cons a rest ih =>
    intro h t
    rw [isListT_cons, isListTb]
    cases hget : s.getNode a with
    | none => simp [hget]
    | some nd => simp [hget, ih]

instance isListT_dec (s : Queue α) (l : List Nat) (h t : Nat) :
    Decidable (isListT s l h t) :=
  decidable_of_iff _ isListT_iff_isListTb.symm

instance validA_dec (s : Queue α) (a : Nat) : Decidable (s.validA a) :=
  decidable_of_iff (a % 2 = 0 ∧ 2 ≤ a ∧ idxOf a < s.heap.length) Iff.rfl

instance existsVal_dec (s : Queue α) (a : Nat) : Decidable (∃ v, s.valAt a = some v) :=
  decidable_of_iff ((s.valAt a).isSome = true) (by rw [Option.isSome_iff_exists])

end Queue

/-- The state reached from a fresh `Queue Nat` by `push 1; pop`: two nodes,
the second (address 4) is the sentinel, the first (address 2) sits on the
free list with its busy tag bit still set. -/
def sBusy : Queue Nat :=
  { heap := [⟨none, ⟨1⟩⟩, ⟨none, ⟨0⟩⟩]
    before_first := 4
    last := 4
    free_list := 2
    allocCount := 2 }

theorem sBusy_reachable : (run (Queue.init Nat) [Op.push 1, Op.pop]).map (fun p => p.1) =
    some sBusy := by decide

theorem Represents_sBusy : Queue.Represents sBusy ⟨[4], [2]⟩ := by
  refine ⟨by decide, by decide, by decide, by decide, by decide, ?_, by decide⟩
  intro a ha
  have ha' : a = 4 ∨ a = 2 := by
    rcases List.mem_append.mp ha with hx | hx
    · exact Or.inl (List.mem_singleton.mp hx)
    · exact Or.inr (List.mem_singleton.mp hx)
  rcases ha' with rfl | rfl <;> decide

/-- The state reached from a fresh `Queue Nat` by `push 1`: the dummy node
(address 2) is the sentinel, the element 1 lives at address 4. -/
def sTwo : Queue Nat :=
  { heap := [⟨none, ⟨5⟩⟩, ⟨some 1, ⟨1⟩⟩]
    before_first := 2
    last := 4
    free_list := 0
    allocCount := 2 }

theorem sTwo_reachable : (run (Queue.init Nat) [Op.push 1]).map (fun p => p.1) =
    some sTwo := by decide

theorem Represents_sTwo : Queue.Represents sTwo ⟨[2, 4], []⟩ := by
  refine ⟨by decide, by decide, by decide, by decide, by decide, ?_, ?_⟩
  · intro a ha
    have ha' : a = 2 ∨ a = 4 := by
      simp only [List.append_nil] at ha
      rcases List.mem_cons.mp ha with hx | hx
      · exact Or.inl hx
      · exact Or.inr (List.mem_singleton.mp hx)
    rcases ha' with rfl | rfl <;> decide
  · intro a ha
    have ha' : a = 4 := by
      simp only [List.tail_cons] at ha
      exact List.mem_singleton.mp ha
    rw [ha']
    decide

/-- C4 counterexample: starting from a fresh queue, `push 1; pop` ends with
allocation count 2 and the pop returns 1; adding `push 2; pop` ends with
allocation count 3 — the second push performed a new node allocation
(contradicting the claim that the freed node is reused), while the final
pop still returns 2. -/
theorem C4_counterexample :
    (run (Queue.init Nat) [Op.push 1, Op.pop]).map
        (fun p => (p.1.allocCount, p.2)) = some (2, [some 1]) ∧
    (run (Queue.init Nat) [Op.push 1, Op.pop, Op.push 2, Op.pop]).map
        (fun p => (p.1.allocCount, p.2)) = some (3, [some 1, some 2]) := by
  constructor
  · decide
  · decide

/-- C4 amended: after `push x; pop` (which returns x) the freed node sits
on the free list with its busy tag bit still set, so the following
`push y` abandons recycling and allocates a new node (allocation count
rises from 2 to 3); a final pop returns y. -/
theorem C4_amended_second_push_allocates (α : Type) (x y : α) :
    ∃ s₁ s₂,
      run (Queue.init α) [Op.push x, Op.pop] = some (s₁, [some x]) ∧
      s₁.allocCount = 2 ∧
      s₁.free_list = addrOf 0 ∧
      (∃ nd, s₁.getNode (addrOf 0) = some nd ∧ nd.next.bit = true) ∧
      run (Queue.init α) [Op.push x, Op.pop, Op.push y, Op.pop] =
        some (s₂, [some x, some y]) ∧
      s₂.allocCount = 3 := by
  refine ⟨⟨[⟨none, ⟨1⟩⟩, ⟨none, ⟨0⟩⟩], 4, 4, 2, 2⟩,
    ⟨[⟨none, ⟨1⟩⟩, ⟨none, ⟨3⟩⟩, ⟨none, ⟨0⟩⟩], 6, 6, 4, 3⟩,
    ?_, rfl, rfl, ⟨⟨none, ⟨1⟩⟩, rfl, rfl⟩, ?_, rfl⟩
  · simp [run, Queue.push_back, Queue.acquireNode, Queue.allocNode, Queue.push_back_node,
      Queue.try_pop_front, Queue.getNode, Queue.setNode, Queue.init, idxOf, addrOf,
      TaggedPtr.ptr, TaggedPtr.bit, TaggedPtr.ofPtrBit, TaggedPtr.null]
  · simp [run, Queue.push_back, Queue.acquireNode, Queue.allocNode, Queue.push_back_node,
      Queue.try_pop_front, Queue.getNode, Queue.setNode, Queue.init, idxOf, addrOf,
      TaggedPtr.ptr, TaggedPtr.bit, TaggedPtr.ofPtrBit, TaggedPtr.null]

/-- Witness for the amended C4 at concrete values. -/
theorem C4_amended_second_push_allocates_witness :
    ∃ s₁ s₂,
      run (Queue.init Nat) [Op.push 1, Op.pop] = some (s₁, [some 1]) ∧
      s₁.allocCount = 2 ∧
      s₁.free_list = addrOf 0 ∧
      (∃ nd, s₁.getNode (addrOf 0) = some nd ∧ nd.next.bit = true) ∧
      run (Queue.init Nat) [Op.push 1, Op.pop, Op.push 2, Op.pop] =
        some (s₂, [some 1, some 2]) ∧
      s₂.allocCount = 3 :=
  C4_amended_second_push_allocates Nat 1 2

/-- C6: `push_back` never takes a node with its tag (busy) bit set from the
free list: whenever the free-list head node's bit is set, the acquisition
loop abandons recycling — the free list and every node on it are left
untouched — and a freshly allocated node holds the new element. -/
theorem C6_no_busy_node_taken {α : Type} (s : Queue α) (r : Queue.Rep) (v : α)
    (b : Nat) (bs : List Nat) (nd : Node α)
    (h : Queue.Represents s r) (hfree : r.free = b :: bs)
    (hnd : s.getNode b = some nd) (hbusy : nd.next.bit = true) :
    ∃ s', s.push_back v = some s' ∧
      Queue.Represents s' ⟨r.chain ++ [addrOf s.heap.length], r.free⟩ ∧
      s'.heap.length = s.heap.length + 1 ∧
      s'.allocCount = s.allocCount + 1 ∧
      s'.free_list = s.free_list ∧
      (∀ x ∈ r.free, s'.getNode x = s.getNode x) := by
  obtain ⟨s', hpb, hrep, -, hlen, hac, hfl, hunch⟩ :=
    Queue.push_busy_head_fresh s r v b bs nd h hfree hnd hbusy
  exact ⟨s', hpb, hrep, hlen, hac, hfl, hunch⟩

/-- Witness for C6 at the reachable state `sBusy`. -/
theorem C6_no_busy_node_taken_witness :
    ∃ s', sBusy.push_back 9 = some s' ∧
      Queue.Represents s' ⟨[4] ++ [addrOf sBusy.heap.length], [2]⟩ ∧
      s'.heap.length = sBusy.heap.length + 1 ∧
      s'.allocCount = sBusy.allocCount + 1 ∧
      s'.free_list = sBusy.free_list ∧
      (∀ x ∈ [2], s'.getNode x = sBusy.getNode x) :=
  C6_no_busy_node_taken sBusy ⟨[4], [2]⟩ 9 2 [] ⟨none, ⟨1⟩⟩
    Represents_sBusy rfl (by decide) (by decide)

/-- C7: when `try_pop_front` retires the previous sentinel onto the free
list it overwrites only the pointer part of that node's `next` word with
the free-list link; the node's tag (busy) bit — and its value storage —
are preserved exactly as they were before retirement. -/
theorem C7_retire_preserves_tag_bit {α : Type} (s : Queue α) (r : Queue.Rep)
    (a0 a1 : Nat) (rest : List Nat) (h : Queue.Represents s r)
    (hch : r.chain = a0 :: a1 :: rest) :
    ∃ v s' nd0 nd0',
      s.getNode a0 = some nd0 ∧
      s.try_pop_front = some (some v, s') ∧
      s'.getNode a0 = some nd0' ∧
      nd0'.value = nd0.value ∧
      nd0'.next.ptr = s.free_list ∧
      nd0'.next.bit = nd0.next.bit := by
  have hflEven : s.free_list % 2 = 0 :=
    Queue.isListT_head_even h.free_ok (fun a ha => h.valid a (by simp [ha]))
  obtain ⟨v, s', nd1, nd0, hnd0, -, -, hpop, -, -, -, -, -, -, -, -, hret⟩ :=
    Queue.pop_spec_cons s r a0 a1 rest h hch
  refine ⟨v, s', nd0, ⟨nd0.value, TaggedPtr.ofPtrBit s.free_list nd0.next.bit⟩,
    hnd0, hpop, hret, rfl, ?_, ?_⟩
  · exact TaggedPtr.ptr_ofPtrBit hflEven _
  · exact TaggedPtr.bit_ofPtrBit hflEven _

/-- Witness for C7 at the reachable state `sTwo`. -/
theorem C7_retire_preserves_tag_bit_witness :
    ∃ v s' nd0 nd0',
      sTwo.getNode 2 = some nd0 ∧
      sTwo.try_pop_front = some (some v, s') ∧
      s'.getNode 2 = some nd0' ∧
      nd0'.value = nd0.value ∧
      nd0'.next.ptr = sTwo.free_list ∧
      nd0'.next.bit = nd0.next.bit :=
  C7_retire_preserves_tag_bit sTwo ⟨[2, 4], []⟩ 2 4 [] Represents_sTwo rfl

/-- C8: on every well-formed queue state, `push_back` terminates and
succeeds — the value is appended, with at most one node allocation — and
`try_pop_front` terminates; in this sequential embedding every CAS retry
loop of the source runs exactly one iteration, so both operations are
total on well-formed states. -/
theorem C8_operations_total {α : Type} (s : Queue α) (r : Queue.Rep) (v : α)
    (h : Queue.Represents s r) :
    (∃ s' nodeA fr', s.push_back v = some s' ∧
      Queue.Represents s' ⟨r.chain ++ [nodeA], fr'⟩ ∧
      Queue.absR s' ⟨r.chain ++ [nodeA], fr'⟩ = Queue.absR s r ++ [v] ∧
      s.allocCount ≤ s'.allocCount ∧ s'.allocCount ≤ s.allocCount + 1) ∧
    ∃ res s₂, s.try_pop_front = some (res, s₂) := by
  constructor
  · obtain ⟨s', nodeA, fr', hpb, hrep, habs, -, -, hd⟩ := Queue.push_spec s r v h
    have hac : s'.allocCount = s.allocCount ∨ s'.allocCount = s.allocCount + 1 := by
      rcases hd with ⟨-, -, -, -, -, -, -, -, -, hac, -⟩ | ⟨-, -, -, -, hac, -⟩
      · exact Or.inl hac
      · exact Or.inr hac
    exact ⟨s', nodeA, fr', hpb, hrep, habs, by omega, by omega⟩
  · cases hch : r.chain with
    | nil => exact absurd hch h.chain_ne
    | cons a0 tl =>
      cases htl : tl with
      | nil =>
        refine ⟨none, s, Queue.pop_spec_empty s r h ?_⟩
        rw [hch, htl]
        rfl
      | cons a1 rest =>
        obtain ⟨v', s₂, -, -, -, -, -, hpop, -⟩ :=
          Queue.pop_spec_cons s r a0 a1 rest h (by rw [hch, htl])
        exact ⟨some v', s₂, hpop⟩

/-- Witness for C8 at the freshly constructed queue. -/
theorem C8_operations_total_witness :
    (∃ s' nodeA fr', (Queue.init Nat).push_back 7 = some s' ∧
      Queue.Represents s' ⟨[addrOf 0] ++ [nodeA], fr'⟩ ∧
      Queue.absR s' ⟨[addrOf 0] ++ [nodeA], fr'⟩ =
        Queue.absR (Queue.init Nat) ⟨[addrOf 0], []⟩ ++ [7] ∧
      (Queue.init Nat).allocCount ≤ s'.allocCount ∧
      s'.allocCount ≤ (Queue.init Nat).allocCount + 1) ∧
    ∃ res s₂, (Queue.init Nat).try_pop_front = some (res, s₂) :=
  C8_operations_total (Queue.init Nat) ⟨[addrOf 0], []⟩ 7 (Queue.Represents_init Nat)

/-- Helper for C10: across any run, a free-list node whose tag bit is set
stays on the free list (with the same suffix behind it), its node contents
never change, and the nodes behind it are never touched. -/
theorem busy_run_preserved {α : Type} (ops : List (Op α)) :
    ∀ (s : Queue α) (r : Queue.Rep) (l₁ l₂ : List Nat) (a : Nat) (nd : Node α),
      Queue.Represents s r → r.free = l₁ ++ a :: l₂ →
      s.getNode a = some nd → nd.next.bit = true →
      ∃ s₁ res r₁ l₁', run s ops = some (s₁, res) ∧ Queue.Represents s₁ r₁ ∧
        r₁.free = l₁' ++ a :: l₂ ∧ s₁.getNode a = some nd ∧
        (∀ x ∈ l₂, s₁.getNode x = s.getNode x) := by
  induction ops with
  | nil =>
    intro s r l₁ l₂ a nd h hsplit hnd hbit
    exact ⟨s, [], r, l₁, rfl, h, hsplit, hnd, fun x _ => rfl⟩
  | cons o ops ih =>
    intro s r l₁ l₂ a nd h hsplit hnd hbit
    cases o with
    | push v =>
      obtain ⟨s', nodeA, fr', hpb, hrep, -, -, hfrunch, hd⟩ := Queue.push_spec s r v h
      have hstep : ∃ l₁', fr' = l₁' ++ a :: l₂ := by
        rcases hd with ⟨b, bs, ndb, hf, hndb, hbitb, -, hfr', -, -, -⟩ |
          ⟨-, hfr', -, -, -, -⟩
        · subst hfr'
          rw [hsplit] at hf
          cases l₁ with
          | nil =>
            exfalso
            rw [List.nil_append] at hf
            injection hf with h1 h2
            subst h1
            rw [hnd] at hndb
            injection hndb with he
            rw [← he] at hbitb
            rw [hbit] at hbitb
            exact absurd hbitb (by decide)
          | cons c l₁' =>
            rw [List.cons_append] at hf
            injection hf with h1 h2
            exact ⟨l₁', h2.symm⟩
        · rw [hfr']
          exact ⟨l₁, hsplit⟩
      obtain ⟨l₁', hfrEq⟩ := hstep
      have hmem_a : a ∈ fr' := by rw [hfrEq]; simp
      have hnd' : s'.getNode a = some nd := by rw [hfrunch a hmem_a]; exact hnd
      have hunchl₂ : ∀ x ∈ l₂, s'.getNode x = s.getNode x := by
        intro x hx
        exact hfrunch x (by rw [hfrEq]; simp [hx])
      obtain ⟨s₁, res, r₁, l₁'', hrun, hrep₁, hfr₁, hnd₁, hunch₁⟩ :=
        ih s' ⟨r.chain ++ [nodeA], fr'⟩ l₁' l₂ a nd hrep hfrEq hnd' hbit
      refine ⟨s₁, res, r₁, l₁'', ?_, hrep₁, hfr₁, hnd₁, ?_⟩
      · rw [run, hpb]
        exact hrun
      · intro x hx
        rw [hunch₁ x hx, hunchl₂ x hx]
    | pop =>
      cases hch : r.chain with
      | nil => exact absurd hch h.chain_ne
      | cons a0 tl =>
        cases htl : tl with
        | nil =>
          have hemp := Queue.pop_spec_empty s r h (by rw [hch, htl]; rfl)
          obtain ⟨s₁, res, r₁, l₁'', hrun, hrep₁, hfr₁, hnd₁, hunch₁⟩ :=
            ih s r l₁ l₂ a nd h hsplit hnd hbit
          refine ⟨s₁, none :: res, r₁, l₁'', ?_, hrep₁, hfr₁, hnd₁, hunch₁⟩
          rw [run, hemp]
          dsimp only
          rw [hrun]
          rfl
        | cons a1 rest =>
          obtain ⟨v', s₂, nd1, nd0, -, -, -, hpop, hrep, -, -, -, -, -, -, hfr_unch, -⟩ :=
            Queue.pop_spec_cons s r a0 a1 rest h (by rw [hch, htl])
          have hfr₂ : (⟨a1 :: rest, a0 :: r.free⟩ : Queue.Rep).free =
              (a0 :: l₁) ++ a :: l₂ := by
            show a0 :: r.free = _
            rw [hsplit]
            rfl
          have hnd₂ : s₂.getNode a = some nd := by
            rw [hfr_unch a (by rw [hsplit]; simp)]
            exact hnd
          have hunch₂ : ∀ x ∈ l₂, s₂.getNode x = s.getNode x := by
            intro x hx
            exact hfr_unch x (by rw [hsplit]; simp [hx])
          obtain ⟨s₁, res, r₁, l₁'', hrun, hrep₁, hfr₁, hnd₁, hunch₁⟩ :=
            ih s₂ ⟨a1 :: rest, a0 :: r.free⟩ (a0 :: l₁) l₂ a nd hrep hfr₂ hnd₂ hbit
          refine ⟨s₁, some v' :: res, r₁, l₁'', ?_, hrep₁, hfr₁, hnd₁, ?_⟩
          · rw [run, hpop]
            dsimp only
            rw [hrun]
            rfl
          · intro x hx
            rw [hunch₁ x hx, hunch₂ x hx]

/-- C10: once a node has entered the free list with its tag (busy) bit set,
no subsequent sequence of `push_back`/`try_pop_front` calls ever clears
that bit or removes the node from the free list (its node word is never
written again), the nodes linked behind it stay behind it untouched — so
they are never reused — and while such a node is the free-list head, every
`push_back` performs a fresh allocation and leaves `free_list` unchanged. -/
theorem C10_busy_free_nodes_stranded {α : Type} (ops : List (Op α))
    (s : Queue α) (r : Queue.Rep) (l₁ l₂ : List Nat) (a : Nat) (nd : Node α)
    (h : Queue.Represents s r) (hsplit : r.free = l₁ ++ a :: l₂)
    (hnd : s.getNode a = some nd) (hbit : nd.next.bit = true) :
    (∃ s₁ res r₁ l₁', run s ops = some (s₁, res) ∧ Queue.Represents s₁ r₁ ∧
      r₁.free = l₁' ++ a :: l₂ ∧ s₁.getNode a = some nd ∧
      (∀ x ∈ l₂, s₁.getNode x = s.getNode x)) ∧
    (l₁ = [] → ∀ v, ∃ s₂, s.push_back v = some s₂ ∧
      s₂.allocCount = s.allocCount + 1 ∧ s₂.free_list = s.free_list) := by
  constructor
  · exact busy_run_preserved ops s r l₁ l₂ a nd h hsplit hnd hbit
  · intro hl₁ v
    subst hl₁
    rw [List.nil_append] at hsplit
    obtain ⟨s₂, hpb, -, -, -, hac, hfl, -⟩ :=
      Queue.push_busy_head_fresh s r v a l₂ nd h hsplit hnd hbit
    exact ⟨s₂, hpb, hac, hfl⟩

/-- Witness for C10 at the reachable state `sBusy`, running one further
push and one further pop. -/
theorem C10_busy_free_nodes_stranded_witness :
    (∃ s₁ res r₁ l₁', run sBusy [Op.push 5, Op.pop] = some (s₁, res) ∧
      Queue.Represents s₁ r₁ ∧
      r₁.free = l₁' ++ 2 :: ([] : List Nat) ∧
      s₁.getNode 2 = some ⟨none, ⟨1⟩⟩ ∧
      (∀ x ∈ ([] : List Nat), s₁.getNode x = sBusy.getNode x)) ∧
    (([] : List Nat) = [] → ∀ v : Nat, ∃ s₂, sBusy.push_back v = some s₂ ∧
      s₂.allocCount = sBusy.allocCount + 1 ∧ s₂.free_list = sBusy.free_list) :=
  C10_busy_free_nodes_stranded [Op.push 5, Op.pop] sBusy ⟨[4], [2]⟩ [] [] 2
    ⟨none, ⟨1⟩⟩ Represents_sBusy rfl (by decide) (by decide)
